import Mathlib

/-!
Verification of the data-loading / color-deduplication / attribute-packing
pipeline of `src/shaders.js`.

The JavaScript source is shallowly embedded:
* strings become `List Char`; JS `String.prototype.trim`, `split('\n')` and
  `split(/\s+/)` become the functions `jsTrim`, `splitOnChar` and `splitWS`;
* JS numbers become `ℚ` (the data files hold exact decimal literals); `Number(tok)`
  becomes `jsNumber : List Char → Option ℚ`, where `none` stands for the
  non-finite results (`NaN`, `±Infinity`) that `parseDataFile` filters out —
  the source drops a line when `isNaN(val) || !isFinite(val)` holds for any value;
* `parseDataFile` (src/shaders.js:153-189) is `parseDataFile` below;
* `generateColorIndices` (src/shaders.js:437-462) is `generateColorIndices` /
  `generateColorPalette` below; the JS `Map` keyed by the template string
  `"r,g,b"` becomes an insertion-ordered association list keyed by the triple
  `(Option ℚ × Option ℚ × Option ℚ)` (a `none` component models `undefined`
  from an out-of-range read); the string key is injective on those triples —
  JS renders distinct exact numbers distinctly, without commas, and renders a
  missing component as the non-numeric text `undefined` — so keying by the
  triple itself is faithful;
* the `Attributes` class (`addAttribute`, `getStride`, `getBuffer`, per-attribute
  `offset`) is used by `setupVertexBuffers` / `loadTruckData` but its definition
  is not part of `src/`; it is modelled from the spec (section 4.3) below.
-/

/-- JS whitespace (the class `\s`, also used by `String.prototype.trim`):
space, tab, LF, VT, FF, CR, NBSP, line/paragraph separator, BOM. -/
def isWS (c : Char) : Bool :=
  c = ' ' || c = '\t' || c = '\n' || c = '\r' || c = '\x0b' || c = '\x0c' ||
  c = '\u00A0' || c = '\u2028' || c = '\u2029' || c = '\uFEFF'

/-- JS `String.prototype.trim`: remove leading and trailing whitespace. -/
def jsTrim (s : List Char) : List Char :=
  List.rdropWhile isWS (s.dropWhile isWS)

/-- Embeds the BOM strip `text.replace(...)` of src/shaders.js:155: remove one leading BOM. -/
def stripBOM : List Char → List Char
  | [] => []
  | c :: rest => if c = '\uFEFF' then rest else c :: rest

/-- JS `s.split(sep)` for a one-character separator: `"" → [""]`,
separators are not kept, adjacent separators yield empty pieces. -/
def splitOnChar (c : Char) : List Char → List (List Char)
  | [] => [[]]
  | x :: xs =>
    if x = c then [] :: splitOnChar c xs
    else
      match splitOnChar c xs with
      | [] => [[x]]
      | r :: rs => (x :: r) :: rs

/-- JS `s.split(/\s+/)`: split at maximal nonempty whitespace runs;
`"" → [""]`; a leading (trailing) run yields a leading (trailing) `""`. -/
def splitWS : List Char → List (List Char)
  | [] => [[]]
  | [x] => if isWS x then [[], []] else [[x]]
  | x :: y :: xs =>
    if isWS x then
      if isWS y then splitWS (y :: xs)
      else [] :: splitWS (y :: xs)
    else
      match splitWS (y :: xs) with
      | [] => [[x]]
      | r :: rs => (x :: r) :: rs

def isDigitChar (c : Char) : Bool := 48 ≤ c.toNat && c.toNat ≤ 57

def digitVal (c : Char) : ℕ := c.toNat - 48

/-- Value of a decimal digit string. -/
def digitsVal (ds : List Char) : ℕ := ds.foldl (fun acc c => 10 * acc + digitVal c) 0

/-- Value of one digit in radix up to 16 (decimal digits, then the lowercase
and uppercase hex letter ranges by code point), `none` for a non-digit. -/
def radixDigitVal (c : Char) : Option ℕ :=
  let n := c.toNat
  if 48 ≤ n && n ≤ 57 then some (n - 48)
  else if 97 ≤ n && n ≤ 102 then some (n - 87)
  else if 65 ≤ n && n ≤ 70 then some (n - 55)
  else none

def parseRadixGo (radix : ℕ) (acc : ℕ) : List Char → Option ℕ
  | [] => some acc
  | c :: cs =>
    match radixDigitVal c with
    | some d => if d < radix then parseRadixGo radix (radix * acc + d) cs else none
    | none => none

/-- JS radix integer literal body (after `0x`/`0o`/`0b`): nonempty digit run. -/
def parseRadix (radix : ℕ) (l : List Char) : Option ℕ :=
  if l.isEmpty then none else parseRadixGo radix 0 l

/-- Optional exponent part of a JS decimal literal; the whole rest of the
token must be consumed. `[] → 0`; `e`/`E`, optional sign, nonempty digits. -/
def parseExpOpt : List Char → Option ℤ
  | [] => some 0
  | c :: rest =>
    if c = 'e' || c = 'E' then
      match rest with
      | '+' :: ds => if !ds.isEmpty && ds.all isDigitChar then some (digitsVal ds) else none
      | '-' :: ds => if !ds.isEmpty && ds.all isDigitChar then some (-(digitsVal ds : ℤ)) else none
      | ds => if !ds.isEmpty && ds.all isDigitChar then some (digitsVal ds) else none
    else none

/-- The rational `n × 10^e` (built with `mkRat` so that it evaluates by
kernel reduction; this is the exact value of a decimal literal with signed
integer mantissa `n` and decimal exponent `e`). -/
def decValue (n : ℤ) (e : ℤ) : ℚ :=
  if 0 ≤ e then mkRat (n * ((10 : ℕ) ^ e.toNat : ℕ)) 1 else mkRat n ((10 : ℕ) ^ (-e).toNat)

def infinityChars : List Char := ['I', 'n', 'f', 'i', 'n', 'i', 't', 'y']

/-- JS unsigned decimal literal with sign `sgn` applied:
`D+ | D+ . D* | . D+`, optional exponent, nothing left over; `none` is `NaN`. -/
def parseDecimal (sgn : ℤ) (t : List Char) : Option ℚ :=
  let intDs := t.takeWhile isDigitChar
  let rest1 := t.dropWhile isDigitChar
  match rest1 with
  | '.' :: rest2 =>
    let fracDs := rest2.takeWhile isDigitChar
    let rest3 := rest2.dropWhile isDigitChar
    if intDs.isEmpty && fracDs.isEmpty then none
    else
      (parseExpOpt rest3).map fun e =>
        decValue (sgn * (digitsVal (intDs ++ fracDs) : ℤ)) (e - fracDs.length)
  | _ =>
    if intDs.isEmpty then none
    else (parseExpOpt rest1).map fun e => decValue (sgn * (digitsVal intDs : ℤ)) e

/-- JS signed-part of a string numeric literal: `Infinity` is non-finite
(dropped by the loader like `NaN`, hence also `none`), else a decimal literal. -/
def parseDecLit (sgn : ℤ) (t : List Char) : Option ℚ :=
  if t = infinityChars then none else parseDecimal sgn t

/-- JS `Number(string)` restricted to finite results: whitespace-trimmed;
empty → `0`; radix literals `0x`/`0o`/`0b` (no sign allowed); otherwise an
optionally signed decimal literal or `Infinity`. `none` stands for `NaN`
and for the non-finite infinities, both of which the loader rejects. -/
def jsNumber (s : List Char) : Option ℚ :=
  match jsTrim s with
  | [] => some 0
  | '0' :: x :: rest =>
    if x = 'x' || x = 'X' then (parseRadix 16 rest).map (fun n => mkRat n 1)
    else if x = 'o' || x = 'O' then (parseRadix 8 rest).map (fun n => mkRat n 1)
    else if x = 'b' || x = 'B' then (parseRadix 2 rest).map (fun n => mkRat n 1)
    else parseDecLit 1 ('0' :: x :: rest)
  | '+' :: rest => parseDecLit 1 rest
  | '-' :: rest => parseDecLit (-1) rest
  | t => parseDecLit 1 t

/-- One line of `parseDataFile`'s mapping step (src/shaders.js:168):
`line.trim().split(/\s+/).map(Number)`. -/
def parseLine (line : List Char) : List (Option ℚ) :=
  (splitWS (jsTrim line)).map jsNumber

/-- The filter of src/shaders.js:175:
`!values.some(val => isNaN(val) || !isFinite(val))`. -/
def survivesLine (vs : List (Option ℚ)) : Bool :=
  !vs.any (fun v => v.isNone)

/-- The numeric values of a surviving line (on surviving lines every entry
is `some`, so this is exactly the JS number list of that line). -/
def extractLine (vs : List (Option ℚ)) : List ℚ :=
  vs.filterMap id

/-- Modelled from the spec: `createDefaultCubeData` is called by
`parseDataFile` but is not defined in `src/`. The spec (sections 4.1, 8)
says it is a fixed built-in default dataset "representing a simple cube
(8 vertices, axis-aligned, unit-scale)", identical across calls. -/
def createDefaultCubeData : List ℚ :=
  [1, 1, 1,   -1, 1, 1,   -1, -1, 1,   1, -1, 1,
   1, -1, -1,  1, 1, -1,  -1, 1, -1,  -1, -1, -1]

/-- The line list `parseDataFile` works on: BOM strip, whole-text trim,
split at newlines (src/shaders.js:155,165-166). -/
def linesOf (text : List Char) : List (List Char) :=
  splitOnChar '\n' (jsTrim (stripBOM text))

/-- The filter-then-flatten step of src/shaders.js:175-176 applied to the
per-line `map(Number)` results. -/
def pipelineOf (pls : List (List (Option ℚ))) : List ℚ :=
  (((pls.filter survivesLine).map extractLine)).flatten

/-- Embeds `parseDataFile` (src/shaders.js:153-189): strip BOM; empty/whitespace-only
text falls back to the default cube; otherwise trim, split into lines,
tokenize and `Number`-parse each line, drop lines with a non-finite value,
flatten; an empty result falls back to the default cube. -/
def parseDataFile (text : List Char) : List ℚ :=
  if jsTrim (stripBOM text) = [] then createDefaultCubeData
  else if 0 < (pipelineOf ((linesOf text).map parseLine)).length
    then pipelineOf ((linesOf text).map parseLine)
    else createDefaultCubeData

/-- The key of the JS `Map` in `generateColorIndices`: the color triple
`(colorsArray[i], colorsArray[i+1], colorsArray[i+2])`, a `none` component
modelling `undefined` from an out-of-range read (src/shaders.js:446). -/
abbrev ColorKey := Option ℚ × Option ℚ × Option ℚ

/-- The triples scanned by the loop `for (i = 0; i < length; i += 3)`
(src/shaders.js:444-446): a trailing partial group keeps `none` for its
missing components. -/
def toTriples : List ℚ → List ColorKey
  | [] => []
  | [r] => [(some r, none, none)]
  | [r, g] => [(some r, some g, none)]
  | r :: g :: b :: rest => (some r, some g, some b) :: toTriples rest

/-- Embeds `Map.get`/`Map.has` on the insertion-ordered association list that
models the JS `Map` (keys are unique, so first match is the match). -/
def lookupKey (k : ColorKey) : List (ColorKey × ℕ) → Option ℕ
  | [] => none
  | (k2, v) :: rest => if k2 = k then some v else lookupKey k rest

/-- The loop body of `generateColorIndices` (src/shaders.js:444-456):
state is (colorMap, nextIndex); returns (colorIndices, final colorMap). -/
def dedupGo : List ColorKey → List (ColorKey × ℕ) → ℕ → List ℕ × List (ColorKey × ℕ)
  | [], m, _ => ([], m)
  | k :: ks, m, n =>
    match lookupKey k m with
    | some i =>
      let r := dedupGo ks m n
      (i :: r.1, r.2)
    | none =>
      let r := dedupGo ks (m ++ [(k, n)]) (n + 1)
      (n :: r.1, r.2)

/-- Embeds `generateColorIndices` (src/shaders.js:437-462): the returned index array. -/
def generateColorIndices (colorsArray : List ℚ) : List ℕ :=
  (dedupGo (toTriples colorsArray) [] 0).1

/-- The final `colorMap` built by `generateColorIndices`, i.e. the palette:
insertion-ordered (key, index) pairs. -/
def generateColorPalette (colorsArray : List ℚ) : List (ColorKey × ℕ) :=
  (dedupGo (toTriples colorsArray) [] 0).2

/-- Specification-side definition (follows the spec's words, for comparison
with the palette the code builds): the distinct keys of a list in
first-seen order. -/
def firstSeenInto (acc : List ColorKey) : List ColorKey → List ColorKey
  | [] => acc
  | k :: ks => firstSeenInto (if k ∈ acc then acc else acc ++ [k]) ks

/-- Specification-side: distinct triples in first-seen order. -/
def firstSeenOrder (ks : List ColorKey) : List ColorKey :=
  firstSeenInto [] ks

/-- Modelled from the spec: one named attribute of the `Attributes` class
(the class is used at src/shaders.js:108-121,387-392,419-430 but not
defined in `src/`). Spec section 3: a (name, NumericSeries, width) triple,
`size` being the number of scalar components per vertex. -/
structure NamedAttribute where
  name : String
  data : List ℚ
  size : ℕ
deriving DecidableEq

/-- Modelled from the spec: the `Attributes` class — an insertion-ordered
collection of named attributes (spec section 3, "AttributeSet"). -/
structure Attributes where
  attributes : List NamedAttribute
deriving DecidableEq

/-- Modelled from the spec: `attributes.addAttribute(name, array, size)`
(src/shaders.js:112-121) appends in insertion order. -/
def Attributes.addAttribute (A : Attributes) (name : String) (data : List ℚ) (size : ℕ) :
    Attributes :=
  ⟨A.attributes ++ [⟨name, data, size⟩]⟩

/-- Scalar byte size: attributes are uploaded as 32-bit floats (`gl.FLOAT`,
`Float32Array`), 4 bytes per scalar. -/
def scalarByteSize : ℕ := 4

/-- Modelled from the spec: `getStride` (src/shaders.js:392,419) — bytes per
vertex: sum of all attribute widths times the scalar byte size (spec 4.3). -/
def Attributes.getStride (A : Attributes) : ℕ :=
  scalarByteSize * (A.attributes.map (fun a => a.size)).sum

/-- Modelled from the spec: the byte offset of the `i`-th attribute
(`attr.offset`, src/shaders.js:392,430) — running sum of the preceding
attributes' byte widths in insertion order (spec 4.3). -/
def Attributes.offsetAt (A : Attributes) (i : ℕ) : ℕ :=
  scalarByteSize * ((A.attributes.take i).map (fun a => a.size)).sum

/-- The `size` scalars attribute `a` holds for vertex `v`. -/
def vertexSlice (a : NamedAttribute) (v : ℕ) : List ℚ :=
  (a.data.drop (v * a.size)).take a.size

/-- Modelled from the spec: the vertex count shared by the attributes of a
set (spec 3/4.3: all attributes of one shape agree on it). -/
def Attributes.vertexCount (A : Attributes) : ℕ :=
  match A.attributes with
  | [] => 0
  | a :: _ => a.data.length / a.size

/-- Modelled from the spec: the interleaved scalar contents of the packed
buffer for `V` vertices — for each vertex, each attribute's scalars in
insertion order (spec 4.3). The byte buffer `getBuffer` returns is these
scalars as consecutive 4-byte floats. -/
def Attributes.getBufferScalars (A : Attributes) (V : ℕ) : List ℚ :=
  ((List.range V).map
    (fun v => (A.attributes.map (fun a => vertexSlice a v)).flatten)).flatten

/-- Modelled from the spec: `getBuffer` (src/shaders.js:420) as a scalar
sequence; its byte length is `scalarByteSize` times its length. -/
def Attributes.getBuffer (A : Attributes) : List ℚ :=
  A.getBufferScalars A.vertexCount

/-- The attribute set of the spec's packing scenario:
positions = [0,0,0, 1,0,0], normals = [0,1,0, 0,1,0], colorIndices = [0,0]. -/
def scenarioAttributes : Attributes :=
  (((Attributes.mk []).addAttribute "a_Position" [0, 0, 0, 1, 0, 0] 3).addAttribute
    "a_Normal" [0, 1, 0, 0, 1, 0] 3).addAttribute "a_ColorIndex" [0, 0] 1

/-- Specification-side vocabulary: a text "consisting of the lines `ls`"
is their newline-joined concatenation. -/
def joinLines : List (List Char) → List Char
  | [] => []
  | [l] => l
  | l :: ls => l ++ '\n' :: joinLines ls

/-! ## Basic lemmas about the string primitives -/

theorem splitWS_ne_nil (s : List Char) : splitWS s ≠ [] := by
  induction s using splitWS.induct with
  | _ => simp only [splitWS]
         repeat first
           | simp
           | split
           | simp_all

theorem splitOnChar_no_sep {c : Char} {l : List Char} (h : c ∉ l) :
    splitOnChar c l = [l] := by
  induction l with
  | nil => rfl
  | cons x xs ih =>
    simp only [List.mem_cons, not_or] at h
    simp [splitOnChar, Ne.symm h.1, ih h.2]

theorem splitOnChar_append_cons {c : Char} {a r : List Char} (h : c ∉ a) :
    splitOnChar c (a ++ c :: r) = a :: splitOnChar c r := by
  induction a with
  | nil => simp [splitOnChar]
  | cons x xs ih =>
    simp only [List.mem_cons, not_or] at h
    simp [splitOnChar, Ne.symm h.1, ih h.2]

theorem mem_joinLines {ls : List (List Char)} {l : List Char} (hl : l ∈ ls)
    {x : Char} (hx : x ∈ l) : x ∈ joinLines ls := by
  induction ls with
  | nil => cases hl
  | cons a as ih =>
    rw [List.mem_cons] at hl
    cases hl with
    | inl h =>
      subst h
      cases as with
      | nil => exact hx
      | cons b bs =>
        simp only [joinLines]
        exact List.mem_append_left _ hx
    | inr h =>
      cases as with
      | nil => cases h
      | cons b bs =>
        simp only [joinLines]
        exact List.mem_append_right _ (List.mem_cons_of_mem _ (ih h))

theorem dropWhile_eq_nil_of_all {p : Char → Bool} {l : List Char}
    (h : ∀ x ∈ l, p x = true) : l.dropWhile p = [] :=
  List.dropWhile_eq_nil_iff.mpr h

theorem dropWhile_append_of_ne {p : Char → Bool} {l r : List Char}
    (h : l.dropWhile p ≠ []) : (l ++ r).dropWhile p = l.dropWhile p ++ r := by
  rw [List.dropWhile_append, if_neg (by simpa using h)]

theorem dropWhile_append_of_all {p : Char → Bool} {l r : List Char}
    (h : ∀ x ∈ l, p x = true) : (l ++ r).dropWhile p = r.dropWhile p := by
  rw [List.dropWhile_append, if_pos (by simp [dropWhile_eq_nil_of_all h])]

theorem rdropWhile_eq_nil_of_all {p : Char → Bool} {l : List Char}
    (h : ∀ x ∈ l, p x = true) : List.rdropWhile p l = [] :=
  List.rdropWhile_eq_nil_iff.mpr h

theorem rdropWhile_append_of_ne {p : Char → Bool} {r l : List Char}
    (h : l.reverse.dropWhile p ≠ []) :
    List.rdropWhile p (r ++ l) = r ++ List.rdropWhile p l := by
  unfold List.rdropWhile
  rw [List.reverse_append, dropWhile_append_of_ne h, List.reverse_append,
    List.reverse_reverse]

theorem exists_not_of_dropWhile_ne {p : Char → Bool} {l : List Char}
    (h : ∃ x ∈ l, p x = false) : l.dropWhile p ≠ [] := by
  intro hnil
  rcases h with ⟨x, hx, hpx⟩
  have := List.dropWhile_eq_nil_iff.mp hnil x hx
  simp [this] at hpx

theorem exists_not_rev {p : Char → Bool} {l : List Char}
    (h : ∃ x ∈ l, p x = false) : l.reverse.dropWhile p ≠ [] :=
  exists_not_of_dropWhile_ne (by simpa using h)

theorem rdropWhile_cons_expand (p : Char → Bool) (c : Char) (t : List Char) :
    List.rdropWhile p (c :: t) =
      if List.rdropWhile p t = [] then (if p c then [] else [c])
      else c :: List.rdropWhile p t := by
  unfold List.rdropWhile
  have hrev : (c :: t).reverse = t.reverse ++ [c] := by simp
  rw [hrev, List.dropWhile_append]
  by_cases hX : t.reverse.dropWhile p = []
  · rw [if_pos (by simp [hX]), if_pos (by simp [hX])]
    by_cases hc : p c
    · simp [List.dropWhile, hc]
    · simp [List.dropWhile, hc]
  · rw [if_neg (by simpa using hX), if_neg (by simpa using hX)]
    simp

theorem dropWhile_rdropWhile_comm (p : Char → Bool) (l : List Char) :
    List.dropWhile p (List.rdropWhile p l) = List.rdropWhile p (List.dropWhile p l) := by
  induction l with
  | nil => simp
  | cons c t ih =>
    by_cases hc : p c
    · rw [List.dropWhile_cons_of_pos hc, ← ih, rdropWhile_cons_expand]
      by_cases ht : List.rdropWhile p t = []
      · rw [if_pos ht, ht, if_pos hc]
      · rw [if_neg ht, List.dropWhile_cons_of_pos hc]
    · rw [List.dropWhile_cons_of_neg hc, rdropWhile_cons_expand]
      by_cases ht : List.rdropWhile p t = []
      · rw [if_pos ht, if_neg hc, List.dropWhile_cons_of_neg hc]
      · rw [if_neg ht, List.dropWhile_cons_of_neg hc]

theorem jsTrim_dropWhile (l : List Char) :
    jsTrim (l.dropWhile isWS) = jsTrim l := by
  unfold jsTrim
  rw [List.dropWhile_idempotent]

theorem jsTrim_rdropWhile (l : List Char) :
    jsTrim (List.rdropWhile isWS l) = jsTrim l := by
  unfold jsTrim
  rw [dropWhile_rdropWhile_comm, List.rdropWhile_idempotent]

theorem jsTrim_idem (l : List Char) : jsTrim (jsTrim l) = jsTrim l := by
  unfold jsTrim
  rw [dropWhile_rdropWhile_comm, List.rdropWhile_idempotent, List.dropWhile_idempotent]

theorem jsTrim_eq_nil_of_all {l : List Char} (h : ∀ x ∈ l, isWS x = true) :
    jsTrim l = [] := by
  unfold jsTrim
  rw [dropWhile_eq_nil_of_all h]
  simp

theorem jsTrim_ne_nil {l : List Char} (h : ∃ x ∈ l, isWS x = false) :
    jsTrim l ≠ [] := by
  have hD : l.dropWhile isWS ≠ [] := exists_not_of_dropWhile_ne h
  unfold jsTrim
  rw [Ne, List.rdropWhile_eq_nil_iff]
  intro hall
  have hhead := List.head_dropWhile_not isWS l hD
  have hmem : (l.dropWhile isWS).head hD ∈ l.dropWhile isWS := List.head_mem hD
  have := hall _ hmem
  simp [this] at hhead

theorem mem_of_mem_jsTrim {l : List Char} {x : Char} (h : x ∈ jsTrim l) : x ∈ l := by
  unfold jsTrim List.rdropWhile at h
  have h1 : x ∈ (l.dropWhile isWS).reverse.dropWhile isWS := by simpa using h
  have h2 := (List.dropWhile_sublist (l := (l.dropWhile isWS).reverse) (p := isWS)).mem h1
  have h3 : x ∈ l.dropWhile isWS := by simpa using h2
  exact (List.dropWhile_sublist (l := l) (p := isWS)).mem h3

theorem jsTrim_stripBOM (s : List Char) : jsTrim (stripBOM s) = jsTrim s := by
  cases s with
  | nil => rfl
  | cons c rest =>
    simp only [stripBOM]
    by_cases hc : c = '﻿'
    · rw [if_pos hc]
      conv_rhs => rw [← jsTrim_dropWhile (c :: rest)]
      rw [List.dropWhile_cons_of_pos (by subst hc; decide), jsTrim_dropWhile]
    · rw [if_neg hc]

theorem mem_of_mem_rdropWhile {l : List Char} {x : Char}
    (h : x ∈ List.rdropWhile isWS l) : x ∈ l := by
  unfold List.rdropWhile at h
  have h1 : x ∈ l.reverse.dropWhile isWS := by simpa using h
  have h2 := (List.dropWhile_sublist (l := l.reverse) (p := isWS)).mem h1
  simpa using h2

theorem parseLine_congr {a b : List Char} (h : jsTrim a = jsTrim b) :
    parseLine a = parseLine b := by
  unfold parseLine
  rw [h]

theorem parseLine_ne_nil (l : List Char) : parseLine l ≠ [] := by
  unfold parseLine
  simpa using splitWS_ne_nil (jsTrim l)

theorem survivesLine_iff (vs : List (Option ℚ)) :
    survivesLine vs = true ↔ ∀ v ∈ vs, v.isSome := by
  unfold survivesLine
  simp [Option.isNone_iff_eq_none, Option.isSome_iff_ne_none]

theorem extractLine_length_of_survives {vs : List (Option ℚ)}
    (h : survivesLine vs = true) : (extractLine vs).length = vs.length := by
  rw [survivesLine_iff] at h
  unfold extractLine
  induction vs with
  | nil => rfl
  | cons v vs ih =>
    rcases Option.isSome_iff_exists.mp (h v (by simp)) with ⟨q, rfl⟩
    simp only [List.filterMap_cons, id, List.length_cons]
    rw [ih (fun w hw => h w (by simp [hw]))]

theorem splitOnChar_rdropWhile_joinLines :
    ∀ (ls : List (List Char)) (h1 : ls ≠ []), (∀ l ∈ ls, '\n' ∉ l) →
      (∃ x ∈ ls.getLast h1, isWS x = false) →
      splitOnChar '\n' (List.rdropWhile isWS (joinLines ls)) =
        ls.dropLast ++ [List.rdropWhile isWS (ls.getLast h1)]
  | [], h1, _, _ => absurd rfl h1
  | [l0], _, h2, _ => by
    simp only [joinLines, List.getLast_singleton, List.dropLast_single,
      List.nil_append]
    exact splitOnChar_no_sep
      (fun hmem => h2 l0 (by simp) (mem_of_mem_rdropWhile hmem))
  | l0 :: l1 :: rest, _, h2, h4 => by
    have hlast : (l0 :: l1 :: rest).getLast (by simp) = (l1 :: rest).getLast (by simp) :=
      List.getLast_cons (by simp)
    have h4' : ∃ x ∈ (l1 :: rest).getLast (by simp), isWS x = false := by
      rw [hlast] at h4; exact h4
    have hT : ∃ x ∈ joinLines (l1 :: rest), isWS x = false := by
      rcases h4' with ⟨x, hx, hpx⟩
      exact ⟨x, mem_joinLines (List.getLast_mem (by simp)) hx, hpx⟩
    have step1 : List.rdropWhile isWS (joinLines (l0 :: l1 :: rest)) =
        l0 ++ '\n' :: List.rdropWhile isWS (joinLines (l1 :: rest)) := by
      have : joinLines (l0 :: l1 :: rest) =
          (l0 ++ ['\n']) ++ joinLines (l1 :: rest) := by
        simp [joinLines]
      rw [this, rdropWhile_append_of_ne (exists_not_rev hT)]
      simp
    rw [step1, splitOnChar_append_cons (h2 l0 (by simp)),
      splitOnChar_rdropWhile_joinLines (l1 :: rest) (by simp)
        (fun l hl => h2 l (by simp [hl])) h4']
    rw [List.dropLast_cons₂, hlast]
    rfl

theorem dropWhile_joinLines {ls : List (List Char)} {l0 : List Char}
    (h3 : ∃ x ∈ l0, isWS x = false) :
    List.dropWhile isWS (joinLines (l0 :: ls)) =
      joinLines (l0.dropWhile isWS :: ls) := by
  cases ls with
  | nil => rfl
  | cons l1 rest =>
    have : joinLines (l0 :: l1 :: rest) = l0 ++ '\n' :: joinLines (l1 :: rest) := rfl
    rw [this, dropWhile_append_of_ne (exists_not_of_dropWhile_ne h3)]
    rfl

theorem map_parseLine_linesOf_joinLines (ls : List (List Char)) (h1 : ls ≠ [])
    (h2 : ∀ l ∈ ls, '\n' ∉ l) (h3 : ∃ x ∈ ls.head h1, isWS x = false)
    (h4 : ∃ x ∈ ls.getLast h1, isWS x = false) :
    (splitOnChar '\n' (jsTrim (joinLines ls))).map parseLine = ls.map parseLine := by
  cases ls with
  | nil => cases h1 rfl
  | cons l0 rest =>
    have h3' : ∃ x ∈ l0, isWS x = false := by simpa using h3
    have hD : l0.dropWhile isWS ≠ [] := exists_not_of_dropWhile_ne h3'
    have hDhead : ∃ x ∈ l0.dropWhile isWS, isWS x = false :=
      ⟨(l0.dropWhile isWS).head hD, List.head_mem hD, List.head_dropWhile_not isWS l0 hD⟩
    have hA : jsTrim (joinLines (l0 :: rest)) =
        List.rdropWhile isWS (joinLines (l0.dropWhile isWS :: rest)) := by
      unfold jsTrim
      rw [dropWhile_joinLines h3']
    have hdropsub : ∀ x ∈ l0.dropWhile isWS, x ∈ l0 :=
      fun x hx => (List.dropWhile_sublist (l := l0) (p := isWS)).mem hx
    have h2' : ∀ l ∈ (l0.dropWhile isWS :: rest), '\n' ∉ l := by
      intro l hl
      rcases List.mem_cons.mp hl with rfl | hl'
      · exact fun hmem => h2 l0 (by simp) (hdropsub _ hmem)
      · exact h2 l (by simp [hl'])
    cases rest with
    | nil =>
      have hE := splitOnChar_rdropWhile_joinLines [l0.dropWhile isWS] (by simp)
        h2' (by simpa using hDhead)
      rw [hA, hE]
      simp only [List.dropLast_single, List.nil_append, List.map_cons, List.map_nil,
        List.head_cons]
      have : parseLine (List.rdropWhile isWS (l0.dropWhile isWS)) = parseLine l0 :=
        parseLine_congr (by rw [jsTrim_rdropWhile, jsTrim_dropWhile])
      rw [List.getLast_singleton, this]
    | cons l1 rest' =>
      have hlast : (l0.dropWhile isWS :: l1 :: rest').getLast (by simp) =
          (l1 :: rest').getLast (by simp) := List.getLast_cons (by simp)
      have hlast0 : (l0 :: l1 :: rest').getLast (by simp) =
          (l1 :: rest').getLast (by simp) := List.getLast_cons (by simp)
      have h4' : ∃ x ∈ (l0.dropWhile isWS :: l1 :: rest').getLast (by simp),
          isWS x = false := by
        rw [hlast]
        rw [hlast0] at h4
        exact h4
      have hE := splitOnChar_rdropWhile_joinLines (l0.dropWhile isWS :: l1 :: rest')
        (by simp) h2' h4'
      rw [hA, hE, hlast, List.dropLast_cons₂]
      have hsplit : (l1 :: rest') =
          (l1 :: rest').dropLast ++ [(l1 :: rest').getLast (by simp)] :=
        (List.dropLast_append_getLast (by simp)).symm
      have hrw1 : parseLine (l0.dropWhile isWS) = parseLine l0 :=
        parseLine_congr (jsTrim_dropWhile l0)
      have hrw2 : parseLine (List.rdropWhile isWS ((l1 :: rest').getLast (by simp))) =
          parseLine ((l1 :: rest').getLast (by simp)) :=
        parseLine_congr (jsTrim_rdropWhile _)
      conv_rhs => rw [List.map_cons, hsplit]
      simp only [List.map_cons, List.map_append, List.cons_append, List.map_nil]
      rw [hrw1, hrw2]

theorem parseDataFile_joinLines (ls : List (List Char)) (h1 : ls ≠ [])
    (h2 : ∀ l ∈ ls, '\n' ∉ l) (h3 : ∃ x ∈ ls.head h1, isWS x = false)
    (h4 : ∃ x ∈ ls.getLast h1, isWS x = false)
    (h5 : ∃ l ∈ ls, survivesLine (parseLine l) = true) :
    parseDataFile (joinLines ls) =
      ((ls.filter (fun l => survivesLine (parseLine l))).map
        (fun l => extractLine (parseLine l))).flatten := by
  have htrim : jsTrim (stripBOM (joinLines ls)) ≠ [] := by
    rw [jsTrim_stripBOM]
    rcases h3 with ⟨x, hx, hpx⟩
    exact jsTrim_ne_nil ⟨x, mem_joinLines (List.head_mem h1) hx, hpx⟩
  have hlines : (linesOf (joinLines ls)).map parseLine = ls.map parseLine := by
    unfold linesOf
    rw [jsTrim_stripBOM]
    exact map_parseLine_linesOf_joinLines ls h1 h2 h3 h4
  have hpipe : pipelineOf ((linesOf (joinLines ls)).map parseLine) =
      ((ls.filter (fun l => survivesLine (parseLine l))).map
        (fun l => extractLine (parseLine l))).flatten := by
    rw [hlines]
    unfold pipelineOf
    rw [List.filter_map, List.map_map]
    rfl
  have hlen : 0 < (pipelineOf ((linesOf (joinLines ls)).map parseLine)).length := by
    rw [hpipe]
    rcases h5 with ⟨l, hl, hsurv⟩
    have hmem : extractLine (parseLine l) ∈
        (ls.filter (fun l => survivesLine (parseLine l))).map
          (fun l => extractLine (parseLine l)) :=
      List.mem_map_of_mem _ (List.mem_filter.mpr ⟨hl, hsurv⟩)
    have hne : extractLine (parseLine l) ≠ [] := by
      intro hnil
      have hlenx := extractLine_length_of_survives hsurv
      rw [hnil] at hlenx
      exact parseLine_ne_nil l (List.length_eq_zero.mp hlenx.symm)
    rw [List.length_pos]
    intro hflat
    exact hne (List.flatten_eq_nil_iff.mp hflat _ hmem)
  unfold parseDataFile
  rw [if_neg htrim, if_pos hlen, hpipe]

theorem flatten_drop_take :
    ∀ (bs : List (List ℚ)) (i : ℕ) (b : List ℚ), bs[i]? = some b →
      ((bs.flatten).drop (((bs.take i).map List.length).sum)).take b.length = b
  | [], i, b, h => by simp at h
  | b0 :: rest, 0, b, h => by
    simp only [List.getElem?_cons_zero, Option.some_inj] at h
    subst h
    simp only [List.take_zero, List.map_nil, List.sum_nil, List.drop_zero,
      List.flatten_cons]
    exact List.take_left b0 rest.flatten
  | b0 :: rest, i + 1, b, h => by
    simp only [List.getElem?_cons_succ] at h
    have ih := flatten_drop_take rest i b h
    simp only [List.take_succ_cons, List.map_cons, List.sum_cons, List.flatten_cons]
    simpa [List.drop_append] using ih

theorem nonblank_of_parseLine_length {l : List Char}
    (h : (parseLine l).length ≠ 1) : ∃ x ∈ l, isWS x = false := by
  by_contra hcon
  push_neg at hcon
  have hall : ∀ x ∈ l, isWS x = true := by
    intro x hx
    have := hcon x hx
    revert this
    cases isWS x <;> simp
  apply h
  unfold parseLine
  rw [jsTrim_eq_nil_of_all hall]
  rfl

theorem sum_map_length_take_three {bs : List (List ℚ)}
    (h : ∀ b ∈ bs, b.length = 3) (i : ℕ) :
    ((bs.take i).map List.length).sum = 3 * (min i bs.length) := by
  induction bs generalizing i with
  | nil => simp
  | cons b rest ih =>
    cases i with
    | zero => simp
    | succ j =>
      simp only [List.take_succ_cons, List.map_cons, List.sum_cons,
        h b (by simp), List.length_cons, ih (fun x hx => h x (by simp [hx]))]
      omega

/-- C2: for every well-formed input text consisting of lines that each hold
exactly 3 parseable finite numbers, `parseDataFile` returns the flattening
of the per-line values: a series of length `3N` in which line `i`'s three
numbers occupy positions `3i, 3i+1, 3i+2`. -/
theorem parseDataFile_wellformed_3col (ls : List (List Char)) (h1 : ls ≠ [])
    (hnl : ∀ l ∈ ls, '\n' ∉ l)
    (h3 : ∀ l ∈ ls, (parseLine l).length = 3 ∧ survivesLine (parseLine l) = true) :
    (parseDataFile (joinLines ls)).length = 3 * ls.length ∧
    ∀ i l, ls[i]? = some l →
      ((parseDataFile (joinLines ls)).drop (3 * i)).take 3 = extractLine (parseLine l) := by
  have hnb : ∀ l ∈ ls, ∃ x ∈ l, isWS x = false := by
    intro l hl
    exact nonblank_of_parseLine_length (by rw [(h3 l hl).1]; omega)
  have hmain := parseDataFile_joinLines ls h1 hnl
    (hnb _ (List.head_mem h1)) (hnb _ (List.getLast_mem h1))
    ⟨ls.head h1, List.head_mem h1, (h3 _ (List.head_mem h1)).2⟩
  have hfilter : ls.filter (fun l => survivesLine (parseLine l)) = ls :=
    List.filter_eq_self.mpr (fun l hl => (h3 l hl).2)
  rw [hfilter] at hmain
  have hlens : ∀ b ∈ ls.map (fun l => extractLine (parseLine l)), b.length = 3 := by
    intro b hb
    rcases List.mem_map.mp hb with ⟨l, hl, rfl⟩
    rw [extractLine_length_of_survives (h3 l hl).2]
    exact (h3 l hl).1
  constructor
  · rw [hmain, List.length_flatten, List.map_map]
    have : ∀ n ∈ (ls.map (List.length ∘ fun l => extractLine (parseLine l))), n = 3 := by
      intro n hn
      rcases List.mem_map.mp hn with ⟨l, hl, rfl⟩
      exact hlens _ (List.mem_map_of_mem _ hl)
    rw [List.sum_eq_card_nsmul _ 3 this]
    simp [Nat.mul_comm]
  · intro i l hi
    have hb : (ls.map (fun l => extractLine (parseLine l)))[i]? =
        some (extractLine (parseLine l)) := by
      simp [List.getElem?_map, hi]
    have := flatten_drop_take _ i _ hb
    rw [sum_map_length_take_three hlens] at this
    have hil : i < ls.length := by
      by_contra hge
      rw [List.getElem?_eq_none (by omega : ls.length ≤ i)] at hi
      cases hi
    rw [List.length_map] at this
    rw [hmain]
    rw [min_eq_left (by omega : i ≤ ls.length)] at this
    rw [← this, extractLine_length_of_survives (h3 l (List.getElem?_mem hi)).2,
      (h3 l (List.getElem?_mem hi)).1]

/-- C5: `parseDataFile` is total and never returns an empty series; on
empty/whitespace-only input, and likewise when every line is dropped by the
finite-number filter, it returns the built-in default cube dataset, a fixed
series of 24 values (8 vertices × 3 coordinates). -/
theorem parseDataFile_default_fallback (text : List Char) :
    ((jsTrim (stripBOM text) = [] ∨
        ∀ l ∈ linesOf text, survivesLine (parseLine l) = false) →
      parseDataFile text = createDefaultCubeData) ∧
    parseDataFile text ≠ [] ∧ createDefaultCubeData.length = 24 := by
  refine ⟨?_, ?_, by decide⟩
  · intro h
    by_cases htrim : jsTrim (stripBOM text) = []
    · unfold parseDataFile
      rw [if_pos htrim]
    · rcases h with h | h
      · exact absurd h htrim
      · have hnil : pipelineOf ((linesOf text).map parseLine) = [] := by
          unfold pipelineOf
          have : (((linesOf text).map parseLine).filter survivesLine) = [] := by
            rw [List.filter_eq_nil_iff]
            intro vs hvs
            rcases List.mem_map.mp hvs with ⟨l, hl, rfl⟩
            simp [h l hl]
          rw [this]
          rfl
        unfold parseDataFile
        rw [if_neg htrim, if_neg (by rw [hnil]; simp)]
  · unfold parseDataFile
    by_cases htrim : jsTrim (stripBOM text) = []
    · rw [if_pos htrim]; decide
    · rw [if_neg htrim]
      by_cases hlen : 0 < (pipelineOf ((linesOf text).map parseLine)).length
      · rw [if_pos hlen]
        exact List.length_pos.mp hlen
      · rw [if_neg hlen]; decide

/-- C6: in a text whose (non-blank-delimited) lines are `ls`, every line
containing a token that fails to parse as a finite number contributes
nothing to the output, while all surviving lines are kept in full and in
original order: the output is exactly the flattening of the surviving
lines' values. (Leading/trailing blank lines are removed by the loader's
whole-text trim before lines exist, hence the first/last lines here are
non-blank; at least one line must survive, else the default-cube fallback
of C5 applies.) -/
theorem parseDataFile_drops_invalid_lines (ls : List (List Char)) (h1 : ls ≠ [])
    (hnl : ∀ l ∈ ls, '\n' ∉ l)
    (h3 : ∃ x ∈ ls.head h1, isWS x = false)
    (h4 : ∃ x ∈ ls.getLast h1, isWS x = false)
    (h5 : ∃ l ∈ ls, survivesLine (parseLine l) = true) :
    parseDataFile (joinLines ls) =
      ((ls.filter (fun l => survivesLine (parseLine l))).map
        (fun l => extractLine (parseLine l))).flatten :=
  parseDataFile_joinLines ls h1 hnl h3 h4 h5

/-- C9: an interior blank (all-whitespace) line between non-blank lines is
not dropped: its single empty token parses as the number `0`, so it
contributes exactly one extra value `0` to the output at its position in
line order. -/
theorem parseDataFile_interior_blank_line (ls1 ls2 : List (List Char))
    (b : List Char) (hb : ∀ x ∈ b, isWS x = true) (hbn : '\n' ∉ b)
    (h1 : ls1 ≠ []) (h2 : ls2 ≠ [])
    (hnl1 : ∀ l ∈ ls1, '\n' ∉ l) (hnl2 : ∀ l ∈ ls2, '\n' ∉ l)
    (h3 : ∃ x ∈ ls1.head h1, isWS x = false)
    (h4 : ∃ x ∈ ls2.getLast h2, isWS x = false) :
    parseDataFile (joinLines (ls1 ++ b :: ls2)) =
      ((ls1.filter (fun l => survivesLine (parseLine l))).map
        (fun l => extractLine (parseLine l))).flatten ++
      0 :: ((ls2.filter (fun l => survivesLine (parseLine l))).map
        (fun l => extractLine (parseLine l))).flatten := by
  have hpb : parseLine b = [some 0] := by
    unfold parseLine
    rw [jsTrim_eq_nil_of_all hb]
    rfl
  have hsurvb : survivesLine (parseLine b) = true := by rw [hpb]; rfl
  have hne : ls1 ++ b :: ls2 ≠ [] := by simp
  have hhead : (ls1 ++ b :: ls2).head hne = ls1.head h1 := by
    cases ls1 with
    | nil => cases h1 rfl
    | cons a t => rfl
  have hlast : (ls1 ++ b :: ls2).getLast hne = ls2.getLast h2 := by
    rw [List.getLast_append' ls1 (b :: ls2) (by simp)]
    rw [List.getLast_cons (by simpa using h2)]
  have hmain := parseDataFile_joinLines (ls1 ++ b :: ls2) hne
    (by
      intro l hl
      rcases List.mem_append.mp hl with hl' | hl'
      · exact hnl1 l hl'
      · rcases List.mem_cons.mp hl' with rfl | hl''
        · exact hbn
        · exact hnl2 l hl'')
    (by rw [hhead]; exact h3)
    (by rw [hlast]; exact h4)
    ⟨b, by simp, hsurvb⟩
  rw [hmain, List.filter_append,
    List.filter_cons_of_pos (p := fun l => survivesLine (parseLine l)) hsurvb,
    List.map_append, List.map_cons, List.flatten_append, List.flatten_cons, hpb]
  rfl

/-! ## Lemmas about color deduplication -/

theorem lookupKey_eq_none_iff (k : ColorKey) :
    ∀ m : List (ColorKey × ℕ), lookupKey k m = none ↔ k ∉ m.map Prod.fst
  | [] => by simp [lookupKey]
  | (k2, v) :: rest => by
    unfold lookupKey
    by_cases h : k2 = k
    · simp [h]
    · simp only [if_neg h, List.map_cons, List.mem_cons]
      rw [lookupKey_eq_none_iff k rest]
      simp [Ne.symm h]

theorem lookupKey_mem {k : ColorKey} {i : ℕ} :
    ∀ {m : List (ColorKey × ℕ)}, lookupKey k m = some i → (k, i) ∈ m
  | [], h => by simp [lookupKey] at h
  | (k2, v) :: rest, h => by
    unfold lookupKey at h
    by_cases hk : k2 = k
    · rw [if_pos hk, Option.some_inj] at h
      subst hk; subst h
      simp
    · rw [if_neg hk] at h
      exact List.mem_cons_of_mem _ (lookupKey_mem h)

theorem lookupKey_append_left {k : ColorKey} {i : ℕ} :
    ∀ {m m' : List (ColorKey × ℕ)}, lookupKey k m = some i →
      lookupKey k (m ++ m') = some i
  | [], _, h => by simp [lookupKey] at h
  | (k2, v) :: rest, m', h => by
    rw [List.cons_append]
    simp only [lookupKey] at h ⊢
    by_cases hk : k2 = k
    · rwa [if_pos hk] at h ⊢
    · rw [if_neg hk] at h ⊢
      exact lookupKey_append_left h

theorem lookupKey_append_right {k : ColorKey} :
    ∀ {m m' : List (ColorKey × ℕ)}, lookupKey k m = none →
      lookupKey k (m ++ m') = lookupKey k m'
  | [], _, _ => rfl
  | (k2, v) :: rest, m', h => by
    rw [List.cons_append]
    simp only [lookupKey] at h ⊢
    by_cases hk : k2 = k
    · rw [if_pos hk] at h; cases h
    · rw [if_neg hk] at h ⊢
      exact lookupKey_append_right h

theorem dedupGo_length : ∀ (ks : List ColorKey) (m : List (ColorKey × ℕ)) (n : ℕ),
    (dedupGo ks m n).1.length = ks.length
  | [], _, _ => rfl
  | k :: ks, m, n => by
    unfold dedupGo
    cases lookupKey k m <;> simp [dedupGo_length ks]

theorem dedupGo_extends : ∀ (ks : List ColorKey) (m : List (ColorKey × ℕ)) (n : ℕ),
    ∃ m', (dedupGo ks m n).2 = m ++ m'
  | [], m, _ => ⟨[], by simp [dedupGo]⟩
  | k :: ks, m, n => by
    unfold dedupGo
    cases h : lookupKey k m with
    | some i =>
      rcases dedupGo_extends ks m n with ⟨m', hm'⟩
      exact ⟨m', hm'⟩
    | none =>
      rcases dedupGo_extends ks (m ++ [(k, n)]) (n + 1) with ⟨m', hm'⟩
      exact ⟨(k, n) :: m', by simp [hm']⟩

theorem dedupGo_lookup_mono {k : ColorKey} {i : ℕ} {m : List (ColorKey × ℕ)}
    (ks : List ColorKey) (n : ℕ) (h : lookupKey k m = some i) :
    lookupKey k (dedupGo ks m n).2 = some i := by
  rcases dedupGo_extends ks m n with ⟨m', hm'⟩
  rw [hm']
  exact lookupKey_append_left h

theorem dedupGo_getElem? :
    ∀ (ks : List ColorKey) (m : List (ColorKey × ℕ)) (n j : ℕ),
      (dedupGo ks m n).1[j]? = ks[j]?.bind (fun k => lookupKey k (dedupGo ks m n).2)
  | [], m, n, j => by simp [dedupGo]
  | k :: ks, m, n, j => by
    unfold dedupGo
    cases h : lookupKey k m with
    | some i =>
      cases j with
      | zero =>
        simp only [List.getElem?_cons_zero, Option.some_bind]
        exact (dedupGo_lookup_mono ks n h).symm
      | succ j' =>
        simpa using dedupGo_getElem? ks m n j'
    | none =>
      have hk1 : lookupKey k (m ++ [(k, n)]) = some n := by
        rw [lookupKey_append_right h]
        simp [lookupKey]
      cases j with
      | zero =>
        simp only [List.getElem?_cons_zero, Option.some_bind]
        exact (dedupGo_lookup_mono ks (n + 1) hk1).symm
      | succ j' =>
        simpa using dedupGo_getElem? ks (m ++ [(k, n)]) (n + 1) j'

theorem dedupGo_snd_range :
    ∀ (ks : List ColorKey) (m : List (ColorKey × ℕ)) (n : ℕ),
      m.map Prod.snd = List.range n →
      (dedupGo ks m n).2.map Prod.snd = List.range ((dedupGo ks m n).2.length)
  | [], m, n, h => by
    have hlen : m.length = n := by
      have := congrArg List.length h
      simpa using this
    simpa [dedupGo, hlen] using h
  | k :: ks, m, n, h => by
    unfold dedupGo
    cases hl : lookupKey k m with
    | some i => exact dedupGo_snd_range ks m n h
    | none =>
      refine dedupGo_snd_range ks (m ++ [(k, n)]) (n + 1) ?_
      rw [List.map_append, h, List.range_succ]
      rfl

theorem dedupGo_keys :
    ∀ (ks : List ColorKey) (m : List (ColorKey × ℕ)) (n : ℕ),
      (dedupGo ks m n).2.map Prod.fst = firstSeenInto (m.map Prod.fst) ks
  | [], m, n => rfl
  | k :: ks, m, n => by
    unfold dedupGo firstSeenInto
    cases hl : lookupKey k m with
    | some i =>
      have hmem : k ∈ m.map Prod.fst := by
        have := lookupKey_mem hl
        exact List.mem_map_of_mem Prod.fst this
      rw [if_pos hmem]
      exact dedupGo_keys ks m n
    | none =>
      have hmem : k ∉ m.map Prod.fst := (lookupKey_eq_none_iff k m).mp hl
      rw [if_neg hmem]
      have := dedupGo_keys ks (m ++ [(k, n)]) (n + 1)
      simpa using this

theorem dedupGo_pair :
    ∀ (ks : List ColorKey) (m : List (ColorKey × ℕ)) (n : ℕ)
      (p : ColorKey × ℕ), p ∈ (dedupGo ks m n).2 → p ∈ m ∨ p.2 ∈ (dedupGo ks m n).1
  | [], m, n, p, hp => Or.inl (by simpa [dedupGo] using hp)
  | k :: ks, m, n, p, hp => by
    unfold dedupGo at hp ⊢
    cases hl : lookupKey k m with
    | some i =>
      rw [hl] at hp
      rcases dedupGo_pair ks m n p hp with h | h
      · exact Or.inl h
      · exact Or.inr (List.mem_cons_of_mem _ h)
    | none =>
      rw [hl] at hp
      rcases dedupGo_pair ks (m ++ [(k, n)]) (n + 1) p hp with h | h
      · rcases List.mem_append.mp h with h' | h'
        · exact Or.inl h'
        · simp only [List.mem_singleton] at h'
          subst h'
          exact Or.inr (by simp)
      · exact Or.inr (List.mem_cons_of_mem _ h)

theorem dedupGo_out_mem (ks : List ColorKey) (m : List (ColorKey × ℕ)) (n : ℕ)
    {i : ℕ} (h : i ∈ (dedupGo ks m n).1) :
    ∃ k, lookupKey k (dedupGo ks m n).2 = some i := by
  rcases List.mem_iff_getElem?.mp h with ⟨j, hj⟩
  rw [dedupGo_getElem?] at hj
  cases hks : ks[j]? with
  | none => rw [hks] at hj; cases hj
  | some k =>
    rw [hks] at hj
    exact ⟨k, hj⟩

theorem eq_of_mem_of_snd_nodup :
    ∀ {m : List (ColorKey × ℕ)}, (m.map Prod.snd).Nodup →
      ∀ {k1 k2 : ColorKey} {i : ℕ}, (k1, i) ∈ m → (k2, i) ∈ m → k1 = k2
  | [], _, _, _, _, h1, _ => by cases h1
  | (ka, va) :: rest, hn, k1, k2, i, h1, h2 => by
    simp only [List.map_cons, List.nodup_cons] at hn
    rcases List.mem_cons.mp h1 with he1 | hm1 <;>
      rcases List.mem_cons.mp h2 with he2 | hm2
    · rw [Prod.mk.injEq] at he1 he2
      rw [he1.1, he2.1]
    · exfalso
      rw [Prod.mk.injEq] at he1
      apply hn.1
      rw [← he1.2]
      exact List.mem_map_of_mem Prod.snd hm2
    · exfalso
      rw [Prod.mk.injEq] at he2
      apply hn.1
      rw [← he2.2]
      exact List.mem_map_of_mem Prod.snd hm1
    · exact eq_of_mem_of_snd_nodup hn.2 hm1 hm2

theorem firstSeenInto_mem :
    ∀ (ks : List ColorKey) (acc : List ColorKey) (x : ColorKey),
      x ∈ firstSeenInto acc ks ↔ x ∈ acc ∨ x ∈ ks
  | [], acc, x => by simp [firstSeenInto]
  | k :: ks, acc, x => by
    unfold firstSeenInto
    rw [firstSeenInto_mem ks _ x]
    by_cases hk : k ∈ acc
    · rw [if_pos hk]
      simp only [List.mem_cons]
      constructor
      · rintro (h | h)
        · exact Or.inl h
        · exact Or.inr (Or.inr h)
      · rintro (h | h | h)
        · exact Or.inl h
        · exact Or.inl (h ▸ hk)
        · exact Or.inr h
    · rw [if_neg hk]
      simp only [List.mem_append, List.mem_singleton, List.mem_cons]
      tauto

theorem firstSeenInto_nodup :
    ∀ (ks : List ColorKey) (acc : List ColorKey), acc.Nodup →
      (firstSeenInto acc ks).Nodup
  | [], acc, h => h
  | k :: ks, acc, h => by
    unfold firstSeenInto
    by_cases hk : k ∈ acc
    · rw [if_pos hk]
      exact firstSeenInto_nodup ks acc h
    · rw [if_neg hk]
      refine firstSeenInto_nodup ks _ ?_
      simp [List.nodup_append, h, hk]

theorem toTriples_length : ∀ a : List ℚ, (toTriples a).length = (a.length + 2) / 3
  | [] => rfl
  | [_] => by norm_num [toTriples]
  | [_, _] => by norm_num [toTriples]
  | r :: g :: b :: rest => by
    simp only [toTriples, List.length_cons]
    rw [toTriples_length rest]
    omega

theorem toTriples_ne_nil {a : List ℚ} (h : a ≠ []) : toTriples a ≠ [] := by
  match a with
  | [] => exact absurd rfl h
  | [_] => simp [toTriples]
  | [_, _] => simp [toTriples]
  | _ :: _ :: _ :: _ => simp [toTriples]

theorem le_foldr_max : ∀ {l : List ℕ} {x : ℕ}, x ∈ l → x ≤ l.foldr max 0
  | [], x, h => by cases h
  | y :: t, x, h => by
    rcases List.mem_cons.mp h with rfl | h'
    · simp [List.foldr_cons]
    · exact le_trans (le_foldr_max h') (by simp [List.foldr_cons])

theorem foldr_max_le : ∀ {l : List ℕ} {M : ℕ}, (∀ x ∈ l, x ≤ M) → l.foldr max 0 ≤ M
  | [], M, _ => Nat.zero_le M
  | y :: t, M, h => by
    simp only [List.foldr_cons, max_le_iff]
    exact ⟨h y (by simp), foldr_max_le (fun x hx => h x (by simp [hx]))⟩

theorem generateColorPalette_snd_range (a : List ℚ) :
    (generateColorPalette a).map Prod.snd = List.range (generateColorPalette a).length :=
  dedupGo_snd_range (toTriples a) [] 0 rfl

theorem generateColorPalette_keys (a : List ℚ) :
    (generateColorPalette a).map Prod.fst = firstSeenOrder (toTriples a) :=
  dedupGo_keys (toTriples a) [] 0

theorem generateColorIndices_length (a : List ℚ) :
    (generateColorIndices a).length = (toTriples a).length :=
  dedupGo_length (toTriples a) [] 0

theorem mem_palette_keys_iff (a : List ℚ) (k : ColorKey) :
    k ∈ (generateColorPalette a).map Prod.fst ↔ k ∈ toTriples a := by
  rw [generateColorPalette_keys, firstSeenOrder, firstSeenInto_mem]
  simp

theorem out_lt_palette_length {a : List ℚ} {i : ℕ}
    (h : i ∈ generateColorIndices a) : i < (generateColorPalette a).length := by
  rcases dedupGo_out_mem (toTriples a) [] 0 h with ⟨k, hk⟩
  have hmem : (k, i) ∈ generateColorPalette a := lookupKey_mem hk
  have : i ∈ (generateColorPalette a).map Prod.snd := List.mem_map_of_mem Prod.snd hmem
  rw [generateColorPalette_snd_range] at this
  exact List.mem_range.mp this

theorem firstSeenOrder_length (ks : List ColorKey) :
    (firstSeenOrder ks).length = ks.dedup.length := by
  have h1 : (firstSeenOrder ks).Nodup := firstSeenInto_nodup ks [] List.nodup_nil
  have h2 : ks.dedup.Nodup := ks.nodup_dedup
  rw [← List.toFinset_card_of_nodup h1, ← List.toFinset_card_of_nodup h2]
  congr 1
  ext x
  simp only [List.mem_toFinset, List.mem_dedup]
  rw [firstSeenOrder, firstSeenInto_mem]
  simp

/-- C1: on a flat series of RGB triples (length divisible by 3) the output
index series has one index per triple, the palette size is the number of
distinct triples, palette indices are assigned sequentially from 0 in
first-seen order, and for nonempty input `max(index) + 1` equals the
palette size. -/
theorem generateColorIndices_c1 (a : List ℚ) (h : a.length % 3 = 0) :
    (generateColorIndices a).length = a.length / 3 ∧
    (generateColorPalette a).length = (toTriples a).dedup.length ∧
    (generateColorPalette a).map Prod.snd = List.range ((generateColorPalette a).length) ∧
    (generateColorPalette a).map Prod.fst = firstSeenOrder (toTriples a) ∧
    (a ≠ [] →
      (generateColorIndices a).foldr max 0 + 1 = (generateColorPalette a).length) := by
  refine ⟨?_, ?_, generateColorPalette_snd_range a, generateColorPalette_keys a, ?_⟩
  · rw [generateColorIndices_length, toTriples_length]
    omega
  · have hkeys := congrArg List.length (generateColorPalette_keys a)
    rw [List.length_map] at hkeys
    rw [hkeys, firstSeenOrder_length]
  · intro hne
    have hpos : 0 < (generateColorIndices a).length := by
      rw [generateColorIndices_length]
      exact List.length_pos.mpr (toTriples_ne_nil hne)
    obtain ⟨i0, hi0⟩ := List.exists_mem_of_ne_nil _ (List.length_pos.mp hpos)
    have hspos : 0 < (generateColorPalette a).length :=
      lt_of_le_of_lt (Nat.zero_le i0) (out_lt_palette_length hi0)
    have hrange : (generateColorPalette a).length - 1 ∈
        (generateColorPalette a).map Prod.snd := by
      rw [generateColorPalette_snd_range]
      exact List.mem_range.mpr (by omega)
    rcases List.mem_map.mp hrange with ⟨p, hp, hps⟩
    rcases dedupGo_pair (toTriples a) [] 0 p hp with h' | h'
    · cases h'
    · have hmem : (generateColorPalette a).length - 1 ∈ generateColorIndices a :=
        hps ▸ h'
      have hle := le_foldr_max hmem
      have hge : (generateColorIndices a).foldr max 0 ≤
          (generateColorPalette a).length - 1 :=
        foldr_max_le (fun x hx => by have := out_lt_palette_length hx; omega)
      omega

theorem generateColorIndices_c1_witness :
    ([1, 0, 0, 1, 0, 0, 0, 1, 0] : List ℚ).length % 3 = 0 ∧
    (generateColorIndices [1, 0, 0, 1, 0, 0, 0, 1, 0]).length =
      ([1, 0, 0, 1, 0, 0, 0, 1, 0] : List ℚ).length / 3 ∧
    (generateColorIndices [1, 0, 0, 1, 0, 0, 0, 1, 0]).foldr max 0 + 1 =
      (generateColorPalette [1, 0, 0, 1, 0, 0, 0, 1, 0]).length :=
  ⟨by decide, (generateColorIndices_c1 _ (by decide)).1,
    (generateColorIndices_c1 [1, 0, 0, 1, 0, 0, 0, 1, 0] (by decide)).2.2.2.2
      (by decide)⟩

/-- C4: two triples of the input receive the same palette index exactly when
they are componentwise identical — no tolerance- or quantization-based
merging; any difference in any component yields different indices. -/
theorem generateColorIndices_c4 (a : List ℚ) (j k : ℕ) (tj tk : ColorKey)
    (hj : (toTriples a)[j]? = some tj) (hk : (toTriples a)[k]? = some tk) :
    ((generateColorIndices a)[j]? = (generateColorIndices a)[k]? ↔ tj = tk) := by
  have hjmem : tj ∈ toTriples a := List.getElem?_mem hj
  have hkmem : tk ∈ toTriples a := List.getElem?_mem hk
  obtain ⟨ij, hij⟩ : ∃ i, lookupKey tj (generateColorPalette a) = some i := by
    cases hli : lookupKey tj (generateColorPalette a) with
    | none =>
      exact absurd ((mem_palette_keys_iff a tj).mpr hjmem)
        ((lookupKey_eq_none_iff tj _).mp hli)
    | some i => exact ⟨i, rfl⟩
  obtain ⟨ik, hik⟩ : ∃ i, lookupKey tk (generateColorPalette a) = some i := by
    cases hli : lookupKey tk (generateColorPalette a) with
    | none =>
      exact absurd ((mem_palette_keys_iff a tk).mpr hkmem)
        ((lookupKey_eq_none_iff tk _).mp hli)
    | some i => exact ⟨i, rfl⟩
  have e1 : (generateColorIndices a)[j]? = some ij := by
    show (dedupGo (toTriples a) [] 0).1[j]? = some ij
    rw [dedupGo_getElem?, hj]
    exact hij
  have e2 : (generateColorIndices a)[k]? = some ik := by
    show (dedupGo (toTriples a) [] 0).1[k]? = some ik
    rw [dedupGo_getElem?, hk]
    exact hik
  rw [e1, e2]
  constructor
  · intro he
    injection he with he'
    subst he'
    exact eq_of_mem_of_snd_nodup
      (by rw [generateColorPalette_snd_range]; exact List.nodup_range _)
      (lookupKey_mem hij) (lookupKey_mem hik)
  · intro he
    subst he
    rw [hij] at hik
    injection hik with he'
    rw [he']

theorem generateColorIndices_c4_witness :
    (toTriples [1, 0, 0, 1, 0, 0, 0, 1, 0])[0]? = some (some 1, some 0, some 0) ∧
    (toTriples [1, 0, 0, 1, 0, 0, 0, 1, 0])[1]? = some (some 1, some 0, some 0) ∧
    (generateColorIndices [1, 0, 0, 1, 0, 0, 0, 1, 0])[0]? =
      (generateColorIndices [1, 0, 0, 1, 0, 0, 0, 1, 0])[1]? :=
  ⟨by decide, by decide,
    (generateColorIndices_c4 [1, 0, 0, 1, 0, 0, 0, 1, 0] 0 1
      (some 1, some 0, some 0) (some 1, some 0, some 0)
      (by decide) (by decide)).mpr rfl⟩

/-- C7: color deduplication is deterministic — equal input series yield an
identical index series and an identical palette (same keys, same indices,
same order). -/
theorem generateColorIndices_c7 (a b : List ℚ) (h : a = b) :
    generateColorIndices a = generateColorIndices b ∧
    generateColorPalette a = generateColorPalette b := by
  subst h
  exact ⟨rfl, rfl⟩

theorem generateColorIndices_c7_witness :
    generateColorIndices [1, 0, 0] = generateColorIndices [1, 0, 0] ∧
    generateColorPalette [1, 0, 0] = generateColorPalette [1, 0, 0] :=
  generateColorIndices_c7 [1, 0, 0] [1, 0, 0] rfl

theorem toTriples_getLast_partial :
    ∀ a : List ℚ, a.length % 3 ≠ 0 →
      ∃ t, (toTriples a).getLast? = some t ∧ t.2.2 = none
  | [], h => absurd rfl h
  | [r], _ => ⟨(some r, none, none), rfl, rfl⟩
  | [r, g], _ => ⟨(some r, some g, none), rfl, rfl⟩
  | r :: g :: b :: rest, h => by
    have hr : rest.length % 3 ≠ 0 := by
      simp only [List.length_cons] at h
      omega
    have hrne : rest ≠ [] := by
      intro hnil
      subst hnil
      simp at hr
    obtain ⟨t, ht1, ht2⟩ := toTriples_getLast_partial rest hr
    refine ⟨t, ?_, ht2⟩
    have hstep : toTriples (r :: g :: b :: rest) =
        (some r, some g, some b) :: toTriples rest := rfl
    rw [hstep]
    cases hT : toTriples rest with
    | nil => exact absurd hT (toTriples_ne_nil hrne)
    | cons y ys =>
      rw [List.getLast?_cons_cons, ← hT, ht1]

/-- C10: on input whose length is not a multiple of 3 the loop still
terminates and emits `⌈length/3⌉` indices; the trailing partial triple is
keyed with `none` (JS `undefined`) for its missing components and receives
a palette entry like any other color. -/
theorem generateColorIndices_c10 (a : List ℚ) (h : a.length % 3 ≠ 0) :
    (generateColorIndices a).length = (a.length + 2) / 3 ∧
    ∃ t, (toTriples a).getLast? = some t ∧ t.2.2 = none ∧
      (lookupKey t (generateColorPalette a)).isSome = true := by
  refine ⟨by rw [generateColorIndices_length, toTriples_length], ?_⟩
  obtain ⟨t, ht1, ht2⟩ := toTriples_getLast_partial a h
  refine ⟨t, ht1, ht2, ?_⟩
  have htm : t ∈ toTriples a := List.mem_of_mem_getLast? ht1
  cases hli : lookupKey t (generateColorPalette a) with
  | none =>
    exact absurd ((mem_palette_keys_iff a t).mpr htm)
      ((lookupKey_eq_none_iff t _).mp hli)
  | some i => rfl

theorem generateColorIndices_c10_witness :
    ([1, 0, 0, 1, 0] : List ℚ).length % 3 ≠ 0 ∧
    (generateColorIndices [1, 0, 0, 1, 0]).length =
      (([1, 0, 0, 1, 0] : List ℚ).length + 2) / 3 :=
  ⟨by decide, (generateColorIndices_c10 [1, 0, 0, 1, 0] (by decide)).1⟩

/-- C8: for the color source text `"1 0 0\n1 0 0\n0 1 0"`, running the Data
Loader and then Color Deduplication produces a palette of size 2 and the
index series `[0, 0, 1]`. -/
theorem loader_dedup_scenario :
    (generateColorPalette (parseDataFile ("1 0 0\n1 0 0\n0 1 0".toList))).length = 2 ∧
    generateColorIndices (parseDataFile ("1 0 0\n1 0 0\n0 1 0".toList)) = [0, 0, 1] := by
  decide

/-! ## Lemmas about the attribute packer -/

theorem vertexSlice_length {a : NamedAttribute} {V v : ℕ}
    (hd : a.data.length = V * a.size) (hv : v < V) :
    (vertexSlice a v).length = a.size := by
  unfold vertexSlice
  rw [List.length_take, List.length_drop, hd]
  have h1 : (v + 1) * a.size ≤ V * a.size := Nat.mul_le_mul_right _ (by omega)
  have h2 : (v + 1) * a.size = v * a.size + a.size := by ring
  omega

theorem flatten_drop :
    ∀ (bs : List (List ℚ)) (i : ℕ),
      (bs.flatten).drop (((bs.take i).map List.length).sum) = (bs.drop i).flatten
  | [], i => by simp
  | b0 :: rest, 0 => by simp
  | b0 :: rest, i + 1 => by
    simp only [List.take_succ_cons, List.map_cons, List.sum_cons, List.flatten_cons,
      List.drop_succ_cons]
    rw [← flatten_drop rest i]
    simp [List.drop_append]

theorem sum_map_length_take_const {bs : List (List ℚ)} {L : ℕ}
    (h : ∀ b ∈ bs, b.length = L) (i : ℕ) :
    ((bs.take i).map List.length).sum = L * min i bs.length := by
  induction bs generalizing i with
  | nil => simp
  | cons b rest ih =>
    cases i with
    | zero => simp
    | succ j =>
      simp only [List.take_succ_cons, List.map_cons, List.sum_cons,
        h b (by simp), List.length_cons, ih (fun x hx => h x (by simp [hx]))]
      have hmin : min (j + 1) (rest.length + 1) = min j rest.length + 1 := by omega
      rw [hmin]
      ring

theorem sum_take_le : ∀ (xs : List ℕ) (i : ℕ), (xs.take i).sum ≤ xs.sum
  | [], _ => by simp
  | x :: rest, 0 => Nat.zero_le _
  | x :: rest, i + 1 => by
    simp only [List.take_succ_cons, List.sum_cons]
    exact Nat.add_le_add_left (sum_take_le rest i) x

/-- C3 (the `Attributes` class is modelled from the spec; see its
definitions): for an attribute set whose attributes all share vertex count
`V > 0`, the packed buffer holds exactly `V × stride` bytes; each byte
offset is the running sum of the preceding attributes' byte widths in
insertion order (first offset 0, consecutive offsets adjacent — no padding
— and the last range ends exactly at the stride, so the per-vertex ranges
never overlap and tile the stride); reading `size` scalars at byte position
`v·stride + offset` recovers attribute `i`'s values for vertex `v`; and in
the spec's scenario the stride is 28 bytes, the color-index offset 24, and
the buffer 56 bytes. -/
theorem attributePacker_c3 (A : Attributes) (V : ℕ) (hV : 0 < V)
    (hne : A.attributes ≠ [])
    (hdata : ∀ a ∈ A.attributes, a.data.length = V * a.size ∧ 0 < a.size) :
    A.vertexCount = V ∧
    scalarByteSize * A.getBuffer.length = V * A.getStride ∧
    A.offsetAt 0 = 0 ∧
    (∀ i ai, A.attributes[i]? = some ai →
      A.offsetAt (i + 1) = A.offsetAt i + scalarByteSize * ai.size) ∧
    A.offsetAt A.attributes.length = A.getStride ∧
    (∀ i j ai, i < j → A.attributes[i]? = some ai →
      A.offsetAt i + scalarByteSize * ai.size ≤ A.offsetAt j) ∧
    (∀ v, v < V → ∀ i ai, A.attributes[i]? = some ai →
      ((A.getBuffer).drop ((v * A.getStride + A.offsetAt i) / scalarByteSize)).take
        ai.size = vertexSlice ai v) ∧
    (scenarioAttributes.getStride = 28 ∧ scenarioAttributes.offsetAt 2 = 24 ∧
      scalarByteSize * scenarioAttributes.getBuffer.length = 56) := by
  have hslice : ∀ a ∈ A.attributes, ∀ v, v < V → (vertexSlice a v).length = a.size :=
    fun a ha v hv => vertexSlice_length (hdata a ha).1 hv
  have hblocklen : ∀ v, v < V →
      ((A.attributes.map (fun a => vertexSlice a v)).flatten).length =
        (A.attributes.map (fun a => a.size)).sum := by
    intro v hv
    rw [List.length_flatten, List.map_map]
    congr 1
    exact List.map_congr_left (fun a ha => hslice a ha v hv)
  have hvc : A.vertexCount = V := by
    unfold Attributes.vertexCount
    cases hattr : A.attributes with
    | nil => exact absurd hattr hne
    | cons a0 rest =>
      have h0 := hdata a0 (by rw [hattr]; simp)
      show a0.data.length / a0.size = V
      rw [h0.1]
      exact Nat.mul_div_cancel V h0.2
  have hbuflen : (A.getBufferScalars V).length =
      V * (A.attributes.map (fun a => a.size)).sum := by
    unfold Attributes.getBufferScalars
    rw [List.length_flatten, List.map_map]
    rw [List.sum_eq_card_nsmul _ ((A.attributes.map (fun a => a.size)).sum) ?_]
    · simp [Nat.mul_comm]
    · intro x hx
      rcases List.mem_map.mp hx with ⟨v, hv, rfl⟩
      exact hblocklen v (List.mem_range.mp hv)
  have hadj : ∀ i ai, A.attributes[i]? = some ai →
      A.offsetAt (i + 1) = A.offsetAt i + scalarByteSize * ai.size := by
    intro i ai hi
    unfold Attributes.offsetAt
    rw [List.take_succ, hi]
    simp [Nat.mul_add]
  have hoff_take : ∀ i, A.offsetAt i =
      scalarByteSize * ((A.attributes.map (fun a => a.size)).take i).sum := by
    intro i
    unfold Attributes.offsetAt
    rw [List.map_take]
  have hmono : ∀ i j, i ≤ j → A.offsetAt i ≤ A.offsetAt j := by
    intro i j hij
    rw [hoff_take, hoff_take]
    apply Nat.mul_le_mul_left
    rw [show (A.attributes.map (fun a => a.size)).take i =
        ((A.attributes.map (fun a => a.size)).take j).take i by
      rw [List.take_take, min_eq_left hij]]
    exact sum_take_le _ i
  refine ⟨hvc, ?_, by simp [Attributes.offsetAt], hadj, ?_, ?_, ?_, by decide⟩
  · unfold Attributes.getBuffer
    rw [hvc, hbuflen]
    unfold Attributes.getStride
    ring
  · rw [hoff_take, List.take_of_length_le (by simp)]
    unfold Attributes.getStride
    rfl
  · intro i j ai hij hi
    rw [← hadj i ai hi]
    exact hmono _ _ (by omega)
  · intro v hv i ai hi
    have harith : (v * A.getStride + A.offsetAt i) / scalarByteSize =
        v * (A.attributes.map (fun a => a.size)).sum +
          ((A.attributes.take i).map (fun a => a.size)).sum := by
      unfold Attributes.getStride Attributes.offsetAt scalarByteSize
      rw [show v * (4 * (A.attributes.map (fun a => a.size)).sum) +
          4 * ((A.attributes.take i).map (fun a => a.size)).sum =
          4 * (v * (A.attributes.map (fun a => a.size)).sum +
            ((A.attributes.take i).map (fun a => a.size)).sum) by ring]
      exact Nat.mul_div_cancel_left _ (by norm_num)
    unfold Attributes.getBuffer
    rw [hvc, harith]
    unfold Attributes.getBufferScalars
    rw [← List.drop_drop]
    have hbs_len : ∀ b ∈ (List.range V).map
        (fun w => (A.attributes.map (fun a => vertexSlice a w)).flatten),
        b.length = (A.attributes.map (fun a => a.size)).sum := by
      intro b hb
      rcases List.mem_map.mp hb with ⟨w, hw, rfl⟩
      exact hblocklen w (List.mem_range.mp hw)
    have hsumv : ((((List.range V).map
        (fun w => (A.attributes.map (fun a => vertexSlice a w)).flatten)).take v).map
          List.length).sum = v * (A.attributes.map (fun a => a.size)).sum := by
      rw [sum_map_length_take_const hbs_len v, List.length_map, List.length_range,
        min_eq_left (by omega)]
      ring
    rw [← hsumv, flatten_drop]
    have hdropcons : ((List.range V).map
        (fun w => (A.attributes.map (fun a => vertexSlice a w)).flatten)).drop v =
        (A.attributes.map (fun a => vertexSlice a v)).flatten ::
          ((List.range V).map
            (fun w => (A.attributes.map (fun a => vertexSlice a w)).flatten)).drop
              (v + 1) := by
      rw [List.drop_eq_getElem_cons (by
        rw [List.length_map, List.length_range]
        omega)]
      congr 1
      simp [List.getElem_map, List.getElem_range]
    rw [hdropcons, List.flatten_cons]
    have hofflen : ((A.attributes.take i).map (fun a => a.size)).sum + ai.size ≤
        (A.attributes.map (fun a => a.size)).sum := by
      have h1 : ((A.attributes.take (i + 1)).map (fun a => a.size)).sum =
          ((A.attributes.take i).map (fun a => a.size)).sum + ai.size := by
        rw [List.take_succ, hi]
        simp
      rw [← h1, List.map_take]
      exact sum_take_le _ (i + 1)
    have hblen := hblocklen v hv
    rw [List.drop_append_of_le_length (by rw [hblen]; omega),
      List.take_append_of_le_length (by rw [List.length_drop, hblen]; omega)]
    have hext := flatten_drop_take (A.attributes.map (fun a => vertexSlice a v)) i
      (vertexSlice ai v) (by rw [List.getElem?_map, hi]; rfl)
    rw [show (((A.attributes.map (fun a => vertexSlice a v)).take i).map
        List.length).sum = ((A.attributes.take i).map (fun a => a.size)).sum by
      rw [← List.map_take, List.map_map]
      congr 1
      exact List.map_congr_left
        (fun a ha => hslice a (List.mem_of_mem_take ha) v hv)] at hext
    rw [← hslice ai (List.getElem?_mem hi) v hv]
    exact hext

theorem attributePacker_c3_witness :
    scenarioAttributes.vertexCount = 2 ∧
    scalarByteSize * scenarioAttributes.getBuffer.length =
      2 * scenarioAttributes.getStride ∧
    scenarioAttributes.getStride = 28 ∧ scenarioAttributes.offsetAt 2 = 24 ∧
    scalarByteSize * scenarioAttributes.getBuffer.length = 56 := by
  have h := attributePacker_c3 scenarioAttributes 2 (by decide) (by decide) (by decide)
  exact ⟨h.1, h.2.1, h.2.2.2.2.2.2.2⟩

theorem parseDataFile_wellformed_3col_witness :
    (parseDataFile (joinLines ["1 0 0".toList, "0 1 0".toList])).length = 3 * 2 :=
  (parseDataFile_wellformed_3col ["1 0 0".toList, "0 1 0".toList]
    (by decide) (by decide) (by decide)).1

theorem parseDataFile_default_fallback_witness :
    parseDataFile ("abc".toList) = createDefaultCubeData ∧
      parseDataFile ("abc".toList) ≠ [] :=
  ⟨(parseDataFile_default_fallback ("abc".toList)).1 (Or.inr (by decide)),
    (parseDataFile_default_fallback ("abc".toList)).2.1⟩

theorem parseDataFile_drops_invalid_lines_witness :
    parseDataFile (joinLines ["1 2 3".toList, "foo".toList, "4 5".toList]) =
      (((["1 2 3".toList, "foo".toList, "4 5".toList]).filter
          (fun l => survivesLine (parseLine l))).map
        (fun l => extractLine (parseLine l))).flatten :=
  parseDataFile_drops_invalid_lines ["1 2 3".toList, "foo".toList, "4 5".toList]
    (by decide) (by decide) (by decide) (by decide) (by decide)

theorem parseDataFile_interior_blank_line_witness :
    parseDataFile (joinLines (["1 2 3".toList] ++ [] :: ["4 5 6".toList])) =
      ((["1 2 3".toList].filter (fun l => survivesLine (parseLine l))).map
        (fun l => extractLine (parseLine l))).flatten ++
      0 :: ((["4 5 6".toList].filter (fun l => survivesLine (parseLine l))).map
        (fun l => extractLine (parseLine l))).flatten :=
  parseDataFile_interior_blank_line ["1 2 3".toList] ["4 5 6".toList] []
    (by decide) (by decide) (by decide) (by decide) (by decide) (by decide)
    (by decide) (by decide)
